import Mathlib

/-!
Verification development for the crypto-cli repository: a shallow
embedding of the layer-selection engine (src/images/imageOutput.go and
the older variant in the images package) and of the manifest
orchestrator (ImageManifest.Encrypt, ImageManifest.DecryptKeys,
DecryptManifest in the distribution package), together with theorems
checking the natural-language specification against the code.

Machine integers of the source (int64 sizes) are modelled as Int; file
input and output is modelled as pure content transformation; the crypto
and compression primitives, whose bodies are outside the given sources,
are modelled from the specification at their documented interfaces.
-/

namespace CryptoCli

/-- A record of the image build history, as delivered by the docker
daemon (image.HistoryResponseItem): a byte size and the created-by
command string.  The daemon lists records newest first. -/
structure HistRecord where
  size : Int
  createdBy : String
deriving DecidableEq

/-- Errors surfaced by the pipeline.  `newError` stands for
utils.NewError (message, no trace), `goError` for errors.New or
errors.Errorf, `authFailed` for an AEAD authentication failure and
`corruptArchive` for an invalid gzip stream. -/
inductive Err where
  | authFailed : Err
  | corruptArchive : Err
  | newError : String → Err
  | goError : String → Err
deriving DecidableEq

/-- Whitespace characters matched by the regular-expression class `\s`
in Go (RE2): space, tab, newline, carriage return, vertical tab and
form feed. -/
def isWs (c : Char) : Bool :=
  c == ' ' || c == '\t' || c == '\n' || c == '\r' ||
    c == Char.ofNat 11 || c == Char.ofNat 12

/-- Match a literal character sequence at the head of a character list;
on success return the remainder.  Used to model matching the literal
pieces of the regular expression in encryptPositions. -/
def chop : List Char → List Char → Option (List Char)
  | [], s => some s
  | _ :: _, [] => none
  | a :: as, b :: bs => if a == b then chop as bs else none

/-- Drop leading whitespace. -/
def dropWs : List Char → List Char
  | [] => []
  | c :: r => if isWs c then dropWs r else c :: r

/-- Consume one or more whitespace characters (the `\s+` of the regular
expression), greedily. -/
def wsPlus : List Char → Option (List Char)
  | [] => none
  | c :: r => if isWs c then some (dropWs r) else none

/-- The literal `#(nop)` that the regular expression looks for. -/
def nopChars : List Char := "#(nop)".data

def trueChars : List Char := "true".data

def falseChars : List Char := "false".data

/-- Does the first alternative of the regular expression
`#\(nop\)\s+<label>=(true|false)` match at the start of s?  Returns the
captured boolean.  The label constant starts with a non-whitespace
character, so the greedy `\s+` needs no backtracking. -/
def matchLabelAt (label s : List Char) : Option Bool :=
  match chop nopChars s with
  | none => none
  | some r =>
    match wsPlus r with
    | none => none
    | some r2 =>
      match chop label r2 with
      | none => none
      | some r3 =>
        match chop ['='] r3 with
        | none => none
        | some r4 =>
          match chop trueChars r4 with
          | some _ => some true
          | none =>
            match chop falseChars r4 with
            | some _ => some false
            | none => none

/-- Leftmost-first match of the regular expression
`#\(nop\)\s+<label>=(true|false)|(#\(nop\))` over a whole string
(re.FindSubmatch): scan positions left to right and at each position
prefer the label alternative.  `none` means no match at all (len
(matches) = 0 in the source); `some none` means a match through the
second alternative only (matches[1] empty); `some (some b)` means the
label alternative matched and captured b. -/
def findMatch (label : List Char) : List Char → Option (Option Bool)
  | [] => none
  | c :: r =>
    match matchLabelAt label (c :: r) with
    | some b => some (some b)
    | none =>
      if (chop nopChars (c :: r)).isSome then some none
      else findMatch label r

/-- strings.Contains: does the needle occur as a contiguous substring? -/
def occursIn (needle : List Char) : List Char → Bool
  | [] => (chop needle []).isSome
  | c :: r => (chop needle (c :: r)).isSome || occursIn needle r

/-- One iteration of the loop of encryptPositions
(src/images/imageOutput.go, lines 302 to 319).  The state is the real
layer counter n, the toEncrypt flag, and the list of recorded
positions; h is the history record visited at this iteration. -/
def encStep (label : List Char) (st : Nat × Bool × List Nat) (h : HistRecord) :
    Nat × Bool × List Nat :=
  let n := st.1
  let toEncrypt := st.2.1
  let acc := st.2.2
  let m := findMatch label h.createdBy.data
  if h.size ≠ 0 ∨ m = none then
    (n + 1, toEncrypt, if toEncrypt then acc ++ [n] else acc)
  else
    match m with
    | some (some true) => (n, true, acc)
    | some (some false) => (n, false, acc)
    | _ => (n, toEncrypt, acc)

def missingLabelMsg : String := "this image was not built with the correct LABEL"

/-- encryptPositions (src/images/imageOutput.go, lines 296 to 326).  The
loop runs the index i from len(hist)−1 down to 0, i.e. it is a left
fold of encStep over the reversed slice.  The labelString package
constant is not part of the given sources, so it is a parameter. -/
def encryptPositions (label : List Char) (hist : List HistRecord) :
    Except Err (List Nat) :=
  let r := hist.reverse.foldl (encStep label) (0, false, [])
  if r.2.2 = [] then .error (.newError missingLabelMsg) else .ok r.2.2

/-- The loop of numLayers (older selection variant in the images
package, lines 256 to 265 of the file given as src/unnamed/part_000),
with the accumulated count as an argument.  This one walks the slice in
the given order. -/
def numLayersGo (label : List Char) : List HistRecord → Nat → Except Err Nat
  | [], _ => .error (.newError missingLabelMsg)
  | h :: t, n =>
    if h.size ≠ 0 ∨ occursIn nopChars h.createdBy.data = false then
      numLayersGo label t (n + 1)
    else if occursIn label h.createdBy.data then .ok n
    else numLayersGo label t n

/-- numLayers of the images package. -/
def numLayers (label : List Char) (hist : List HistRecord) : Except Err Nat :=
  numLayersGo label hist 0

/-- The positions the fold of encryptPositions records (the encryptPos
slice just before the emptiness check). -/
def encPosList (label : List Char) (hist : List HistRecord) : List Nat :=
  (hist.reverse.foldl (encStep label) (0, false, [])).2.2

/-- The label used in the worked example of the specification. -/
def labelX : List Char := "LABEL x".data

/-- A real docker created-by string for the marker LABEL x=true. -/
def trueMarkerCmd : String := "/bin/sh -c #(nop)  LABEL x=true"

/-- A real docker created-by string for the marker LABEL x=false. -/
def falseMarkerCmd : String := "/bin/sh -c #(nop)  LABEL x=false"

/-- A history whose only marker sits at slice index 0, hence is
scanned last by the loop of encryptPositions: the flag is armed only
after every real layer has been visited. -/
def loneMarkerHist : List HistRecord := [⟨0, trueMarkerCmd⟩, ⟨100, "A"⟩]

/-- The worked example history of the specification, given newest
first, exactly as the claim states it is passed to encryptPositions. -/
def specHist : List HistRecord :=
  [⟨0, "LABEL x=true"⟩, ⟨100, "A"⟩, ⟨50, "B"⟩, ⟨0, "LABEL x=false"⟩, ⟨200, "C"⟩]

/-- The worked example with the marker records carrying their real
docker created-by strings and the history ordered so that the newest
record (layer C) comes first, hence the true marker, oldest in build
order, is scanned first by the loop. -/
def amendedHist : List HistRecord :=
  [⟨200, "C"⟩, ⟨0, falseMarkerCmd⟩, ⟨50, "B"⟩, ⟨100, "A"⟩, ⟨0, trueMarkerCmd⟩]

/-! ## Decimal rendering of a natural number

The salt format string of the distribution package renders the layer
index with the %d verb of fmt.Sprintf, i.e. in decimal.  The rendering
is defined with explicit fuel so that it is structural and evaluates by
kernel reduction. -/

def digitChar : Nat → Char
  | 0 => '0'
  | 1 => '1'
  | 2 => '2'
  | 3 => '3'
  | 4 => '4'
  | 5 => '5'
  | 6 => '6'
  | 7 => '7'
  | 8 => '8'
  | _ => '9'

def natDecGo : Nat → Nat → List Char → List Char
  | 0, _, acc => acc
  | fuel + 1, n, acc =>
    if n < 10 then digitChar n :: acc
    else natDecGo fuel (n / 10) (digitChar (n % 10) :: acc)

/-- The decimal digit string of n, most significant digit first. -/
def natDec (n : Nat) : List Char := natDecGo (n + 1) n []

def natDecStr (n : Nat) : String := ⟨natDec n⟩

/-! ## Salts

The package constants of the distribution file (lines 271 to 275):
saltBase = "com.senetas.crypto/%s/%s", configSalt = saltBase +
"/config", layerSalt = saltBase + "/layer%d", instantiated by
fmt.Sprintf with the repository path and the tag (and the layer index
for layers). -/

def configSaltStr (path tag : String) : String :=
  "com.senetas.crypto/" ++ path ++ "/" ++ tag ++ "/config"

def layerSaltStr (path tag : String) (i : Nat) : String :=
  "com.senetas.crypto/" ++ path ++ "/" ++ tag ++ "/layer" ++ natDecStr i

/-- The salt of a wrapping context: none is the config blob, some i is
the layer at position i. -/
def saltFor (path tag : String) : Option Nat → String
  | none => configSaltStr path tag
  | some i => layerSaltStr path tag i

/-- The final salt segment of a wrapping context. -/
def sfxOf : Option Nat → List Char
  | none => "config".data
  | some i => "layer".data ++ natDec i

/-- The string contains no slash.  Docker tag syntax
([A-Za-z0-9_][A-Za-z0-9._-]{0,127}) never admits a slash in a tag,
while a repository path may contain slashes. -/
def noSlashB (s : String) : Bool := s.data.all (fun c => c != '/')

/-! ## File content, crypto primitives and blobs

The bodies of the blob transition methods and of the crypto and gzip
primitives live in files of the repository that are not among the
given sources; they are modelled from the specification (§4.1 to §4.3)
at their documented interfaces.  File content is symbolic: a raw byte
list, a gzip transform of a content, or an AEAD encryption of a
content under a data key.  Content digests are modelled by the content
itself (a perfectly content-addressed hash). -/

inductive FileContent where
  | raw : List Nat → FileContent
  | gz : FileContent → FileContent
  | aes : Nat → FileContent → FileContent
deriving DecidableEq

/-- Size in bytes of a stored content; any deterministic model works,
this one counts one byte of framing per transform. -/
def fcSize : FileContent → Nat
  | .raw b => b.length
  | .gz f => fcSize f + 1
  | .aes _ f => fcSize f + 1

/-- crypto.Opts as used by the manifest orchestrator: the passphrase
and the per-blob salt (the orchestrator overwrites the salt before
every use). -/
structure Opts where
  passphrase : String
  salt : String
deriving DecidableEq

/-- names.NamedTaggedRepository at the interface the orchestrator
uses: the repository path and the tag. -/
structure Ref where
  path : String
  tag : String
deriving DecidableEq

/-- Modelled from the spec: crypto.GenDataKey (§4.2).  The fresh
random data key is modelled as a deterministic function of the options
(randomness and freshness are not modelled; no claim depends on
them). -/
def genDataKey (opts : Opts) : Nat :=
  opts.passphrase.length + opts.salt.length

/-- The blob variants of the distribution package, following the
type-state model of §3: plain (NoncryptedBlob), compressed
(CompressedBlob), staged plaintext (DecryptedBlob), key-wrapped
ciphertext (EncryptedBlob, the wire form), key-unwrapped ciphertext
(KeyDecryptedBlob), and the nil Go interface value. -/
inductive Blob where
  | noncrypted (filename : String) (dig : Option FileContent) (size : Nat)
      (content : FileContent)
  | compressed (filename : String) (dig : FileContent) (size : Nat)
      (content : FileContent)
  | decrypted (filename : String) (content : FileContent)
  | encrypted (filename : String) (dig : FileContent) (size : Nat)
      (content : FileContent) (wrapped : (String × String) × Nat)
  | keyDecrypted (filename : String) (dig : FileContent) (size : Nat)
      (content : FileContent) (dataKey : Nat)
  | nilBlob
deriving DecidableEq

/-- The underlying file content tracked through a blob. -/
def contentOf : Blob → FileContent
  | .noncrypted _ _ _ c => c
  | .compressed _ _ _ c => c
  | .decrypted _ c => c
  | .encrypted _ _ _ c _ => c
  | .keyDecrypted _ _ _ c _ => c
  | .nilBlob => .raw []

/-- Modelled from the spec: blob.Compress (§4.1, §4.3).
Gzip-compresses the content; the digest and size of the result are
those of the compressed bytes, computed in the same pass. -/
def compressBlob (outfile : String) (c : FileContent) : Blob :=
  .compressed outfile (.gz c) (fcSize (.gz c)) (.gz c)

/-- Modelled from the spec: DecryptedBlob.EncryptBlob (§4.2, §4.3).
Generates a data key, encrypts the content under it (digest and size
are of the ciphertext) and wraps the data key under the
key-encryption-key derived from the passphrase and salt of opts.  Key
derivation is modelled by the pair (passphrase, salt) itself: equal
pairs give equal keys, different pairs give different keys. -/
def encryptBlobC (opts : Opts) (outfile : String) (c : FileContent) : Blob :=
  let dk := genDataKey opts
  let ct : FileContent := .aes dk c
  .encrypted outfile ct (fcSize ct) ct ((opts.passphrase, opts.salt), dk)

/-- Modelled from the spec: KeyDecryptedBlob.DecryptFile (§4.2, §4.5):
authenticated decryption of the ciphertext under the recovered data
key, producing a plain blob; fails with an authentication error if the
key does not verify against the ciphertext. -/
def decFileBlob (outfile : String) (content : FileContent) (dataKey : Nat) :
    Except Err Blob :=
  match content with
  | .aes k p =>
    if k = dataKey then .ok (.noncrypted outfile (some p) (fcSize p) p)
    else .error .authFailed
  | _ => .error .authFailed

/-- Modelled from the spec: CompressedBlob.Decompress (§4.1): inverse
of compression, failing on a stream that is not valid gzip. -/
def decompressBlob (outfile : String) (content : FileContent) : Except Err Blob :=
  match content with
  | .gz p => .ok (.noncrypted outfile (some p) (fcSize p) p)
  | _ => .error .corruptArchive

/-- ImageManifest of the distribution package (lines 277 to 284). -/
structure ImageManifest where
  schemaVersion : Nat
  mediaType : String
  config : Blob
  layers : List Blob
  dirName : String
deriving DecidableEq

/-! ## ImageManifest.Encrypt (src/unnamed/part_002, lines 287 to 344) -/

/-- The config branch of ImageManifest.Encrypt (lines 294 to 318): a
staged plaintext config is encrypted and key-wrapped under the config
salt; a plain config is passed through in the clear (the compression
call is commented out in the source) with digest and size recomputed
from the plain content; the default case leaves the Go interface
variable at nil. -/
def encConfigStep (ref : Ref) (opts : Opts) : Blob → Blob
  | .decrypted fn c =>
    encryptBlobC { opts with salt := configSaltStr ref.path ref.tag } (fn ++ ".aes") c
  | .noncrypted fn _ _ c => .noncrypted fn (some c) (fcSize c) c
  | _ => .nilBlob

/-- The body of the layer loop of ImageManifest.Encrypt (lines 320 to
335) at index i: a staged plaintext layer is encrypted and key-wrapped
under the salt of layer i; a plain layer is compressed; the default
case leaves the slot at nil. -/
def encLayerStep (ref : Ref) (opts : Opts) (i : Nat) : Blob → Blob
  | .decrypted fn c =>
    encryptBlobC { opts with salt := layerSaltStr ref.path ref.tag i } (fn ++ ".aes") c
  | .noncrypted fn _ _ c => compressBlob (fn ++ ".gz") c
  | _ => .nilBlob

/-- The layer loop of ImageManifest.Encrypt, starting at index i. -/
def encLayersGo (ref : Ref) (opts : Opts) : Nat → List Blob → List Blob
  | _, [] => []
  | i, b :: rest => encLayerStep ref opts i b :: encLayersGo ref opts (i + 1) rest

/-- ImageManifest.Encrypt: classify the config and every layer in
original order and return a new manifest with the same schema version,
media type and directory, holding the transitioned blobs.  I/O
failures of the underlying primitives are not modelled, so the
function is total. -/
def ImageManifest.encrypt (m : ImageManifest) (ref : Ref) (opts : Opts) :
    ImageManifest :=
  { schemaVersion := m.schemaVersion
    mediaType := m.mediaType
    config := encConfigStep ref opts m.config
    layers := encLayersGo ref opts 0 m.layers
    dirName := m.dirName }

/-! ## ImageManifest.DecryptKeys (src/unnamed/part_002, lines 347 to 377) -/

def wrongTypeMsg : String := "mainfest blobs are of wrong type"

/-- The layer loop of ImageManifest.DecryptKeys (lines 363 to 375) at
starting index i.  The source mutates m.Layers in place and returns on
the first error; here the final state of the layer list is returned
together with the first error, if any.  Slots past a failing one are
untouched; the failing slot itself is modelled as left unchanged (its
value on error is produced by EncryptedBlob.DecryptKey, whose body is
not among the given sources).  Compressed and plain blobs are left
untouched (§4.5); any other variant is the wrong-type error of the
default case. -/
def dkLayersGo (pass : String) (ref : Ref) : Nat → List Blob → List Blob × Option Err
  | _, [] => ([], none)
  | i, b :: rest =>
    match b with
    | .encrypted fn dg sz c w =>
      if w.1 = (pass, layerSaltStr ref.path ref.tag i) then
        let r := dkLayersGo pass ref (i + 1) rest
        (.keyDecrypted fn dg sz c w.2 :: r.1, r.2)
      else (b :: rest, some .authFailed)
    | .noncrypted _ _ _ _ =>
      let r := dkLayersGo pass ref (i + 1) rest
      (b :: r.1, r.2)
    | .compressed _ _ _ _ =>
      let r := dkLayersGo pass ref (i + 1) rest
      (b :: r.1, r.2)
    | _ => (b :: rest, some (.goError wrongTypeMsg))

/-- ImageManifest.DecryptKeys: unwrap the key of the config blob, then
of every layer blob in index order, in place, returning the first
error; the salt is recomputed per blob from the repository path and
tag of ref.  The mutated manifest is returned together with the error,
if any. -/
def ImageManifest.decryptKeys (m : ImageManifest) (opts : Opts) (ref : Ref) :
    ImageManifest × Option Err :=
  match m.config with
  | .encrypted fn dg sz c w =>
    if w.1 = (opts.passphrase, configSaltStr ref.path ref.tag) then
      let r := dkLayersGo opts.passphrase ref 0 m.layers
      ({ m with config := .keyDecrypted fn dg sz c w.2, layers := r.1 }, r.2)
    else (m, some .authFailed)
  | .noncrypted _ _ _ _ =>
    let r := dkLayersGo opts.passphrase ref 0 m.layers
    ({ m with layers := r.1 }, r.2)
  | .compressed _ _ _ _ =>
    let r := dkLayersGo opts.passphrase ref 0 m.layers
    ({ m with layers := r.1 }, r.2)
  | _ => (m, some (.goError wrongTypeMsg))

/-! ## DecryptManifest (src/unnamed/part_002, lines 381 to 421) -/

def notDecryptableMsg : String := "manifest is not decryptable"

/-- The per-layer switch of DecryptManifest (lines 400 to 411): a
key-unwrapped blob is decrypted to file, a compressed blob is
decompressed; the default case sets no error and leaves the output
slot at its zero value, the nil Go interface. -/
def decLayerStep : Blob → Except Err Blob
  | .keyDecrypted fn _ _ c dk => decFileBlob (fn ++ ".dec") c dk
  | .compressed fn _ _ c => decompressBlob (fn ++ ".dec") c
  | _ => .ok .nilBlob

/-- The layer loop of DecryptManifest: first error aborts. -/
def decLayersGo : List Blob → Except Err (List Blob)
  | [] => .ok []
  | b :: rest =>
    match decLayerStep b with
    | .error e => .error e
    | .ok b2 =>
      match decLayersGo rest with
      | .error e => .error e
      | .ok r => .ok (b2 :: r)

/-- DecryptManifest: the config must be key-unwrapped (decrypted to
file) or plain (passed through unchanged); any other config variant is
an error.  Layers go through decLayerStep; the first error aborts.  On
success a new manifest with the same schema version, media type and
directory is returned. -/
def DecryptManifest (manifest : ImageManifest) : Except Err ImageManifest :=
  let cfg : Except Err Blob :=
    match manifest.config with
    | .keyDecrypted fn _ _ c dk => decFileBlob (fn ++ ".dec") c dk
    | b@(.noncrypted _ _ _ _) => .ok b
    | _ => .error (.goError notDecryptableMsg)
  match cfg with
  | .error e => .error e
  | .ok config =>
    match decLayersGo manifest.layers with
    | .error e => .error e
    | .ok layers =>
      .ok { schemaVersion := manifest.schemaVersion
            mediaType := manifest.mediaType
            config := config
            layers := layers
            dirName := manifest.dirName }

/-- A blob in one of the two forms CreateManifest stages for the push
pipeline: staged plaintext (selected for encryption) or plain. -/
def pushReadyB : Blob → Bool
  | .decrypted _ _ => true
  | .noncrypted _ _ _ _ => true
  | _ => false

/-- A config variant that falls into the default (error) case of the
config switch of DecryptManifest. -/
def configBadB : Blob → Bool
  | .encrypted _ _ _ _ _ => true
  | .decrypted _ _ => true
  | .compressed _ _ _ _ => true
  | .nilBlob => true
  | _ => false

/-- A layer variant that falls into the default (silent) case of the
layer switch of DecryptManifest. -/
def layerOtherB : Blob → Bool
  | .noncrypted _ _ _ _ => true
  | .decrypted _ _ => true
  | .encrypted _ _ _ _ _ => true
  | .nilBlob => true
  | _ => false

def ref0 : Ref := ⟨"user/app", "v1"⟩

def opts0 : Opts := ⟨"hunter2", ""⟩

def m0 : ImageManifest :=
  { schemaVersion := 2
    mediaType := "mt"
    config := .decrypted "cfg" (.raw [1, 2])
    layers := [.decrypted "l0" (.raw [3]), .noncrypted "l1" none 0 (.raw [4, 5])]
    dirName := "dir" }

/-- A manifest with a plain config and one plain layer. -/
def mC4 : ImageManifest :=
  { schemaVersion := 2
    mediaType := "mt"
    config := .noncrypted "cfg" none 0 (.raw [7, 7])
    layers := [.noncrypted "l1" none 0 (.raw [4, 5])]
    dirName := "dir" }

/-- A manifest whose single layer is still key-wrapped, a state the
pull-side contract does not expect. -/
def mC6 : ImageManifest :=
  { schemaVersion := 2
    mediaType := "mt"
    config := .noncrypted "cfg" none 0 (.raw [1])
    layers := [.encrypted "l0" (.raw []) 0 (.raw []) (("p", "s"), 0)]
    dirName := "dir" }

/-- A manifest whose config is the nil blob. -/
def mBadCfg : ImageManifest :=
  { schemaVersion := 2
    mediaType := "mt"
    config := .nilBlob
    layers := []
    dirName := "dir" }

/-- The key-unwrapped form of a key-wrapped blob (other blobs are
returned unchanged). -/
def unwrapEnc : Blob → Blob
  | .encrypted fn dg sz c w => .keyDecrypted fn dg sz c w.2
  | b => b

/-- The blob is key-wrapped under the kek that DecryptKeys will derive
for layer position i: its wrap key is the pair of the passphrase and
the salt of layer i. -/
def isEncAt (pass path tag : String) (i : Nat) (b : Blob) : Prop :=
  ∃ fn dg sz c dk, b = .encrypted fn dg sz c ((pass, layerSaltStr path tag i), dk)

/-! ## Lemmas about the regular-expression scan -/

theorem chop_suffix : ∀ (needle s r : List Char), chop needle s = some r → ∃ u, u ++ r = s := by
  intro needle
  induction needle with
  | nil =>
    intro s r h
    simp [chop] at h
    exact ⟨[], by simp [h]⟩
  | cons a as ih =>
    intro s r h
    cases s with
    | nil => simp [chop] at h
    | cons b bs =>
      by_cases hab : a == b
      · simp [chop, hab] at h
        obtain ⟨u, hu⟩ := ih bs r h
        exact ⟨b :: u, by simp [hu]⟩
      · simp [chop, hab] at h

theorem dropWs_suffix : ∀ s : List Char, ∃ u, u ++ dropWs s = s := by
  intro s
  induction s with
  | nil => exact ⟨[], rfl⟩
  | cons c r ih =>
    by_cases hc : isWs c
    · obtain ⟨u, hu⟩ := ih
      exact ⟨c :: u, by simp [dropWs, hc, hu]⟩
    · exact ⟨[], by simp [dropWs, hc]⟩

theorem wsPlus_suffix (s r : List Char) (h : wsPlus s = some r) : ∃ u, u ++ r = s := by
  cases s with
  | nil => simp [wsPlus] at h
  | cons c t =>
    by_cases hc : isWs c
    · simp [wsPlus, hc] at h
      obtain ⟨u, hu⟩ := dropWs_suffix t
      exact ⟨c :: u, by simp [h ▸ hu]⟩
    · simp [wsPlus, hc] at h

theorem occursIn_chop (needle hay r : List Char) (h : chop needle hay = some r) :
    occursIn needle hay = true := by
  cases hay <;> simp [occursIn, h]

theorem occursIn_suffix (needle : List Char) :
    ∀ u r : List Char, occursIn needle r = true → occursIn needle (u ++ r) = true := by
  intro u
  induction u with
  | nil => intro r h; simpa using h
  | cons a t ih =>
    intro r h
    simp [occursIn, ih r h]

theorem matchLabelAt_occurs (label s : List Char) (b : Bool)
    (h : matchLabelAt label s = some b) : occursIn label s = true := by
  unfold matchLabelAt at h
  split at h
  · exact absurd h (by simp)
  rename_i r h1
  split at h
  · exact absurd h (by simp)
  rename_i r2 h2
  split at h
  · exact absurd h (by simp)
  rename_i r3 h3
  obtain ⟨u1, hu1⟩ := chop_suffix nopChars s r h1
  obtain ⟨u2, hu2⟩ := wsPlus_suffix r r2 h2
  have h4 : occursIn label r2 = true := occursIn_chop label r2 r3 h3
  have h5 : occursIn label r = true := hu2 ▸ occursIn_suffix label u2 r2 h4
  exact hu1 ▸ occursIn_suffix label u1 r h5

theorem findMatch_occurs (label : List Char) :
    ∀ (s : List Char) (b : Bool), findMatch label s = some (some b) →
      occursIn label s = true := by
  intro s
  induction s with
  | nil => intro b h; simp [findMatch] at h
  | cons c r ih =>
    intro b h
    unfold findMatch at h
    split at h
    · rename_i b2 h1
      exact matchLabelAt_occurs label (c :: r) b2 h1
    · by_cases h2 : (chop nopChars (c :: r)).isSome
      · simp [h2] at h
      · simp [h2] at h
        have := ih b h
        simp [occursIn, this]

/-- The loop invariant of encryptPositions over a history segment none
of whose records contains the label: the flag stays disarmed and no
position is recorded (the counter may advance freely). -/
theorem encFold_inv (label : List Char) :
    ∀ (l : List HistRecord) (n : Nat),
      (∀ r ∈ l, occursIn label r.createdBy.data = false) →
      (l.foldl (encStep label) (n, false, [])).2.1 = false ∧
        (l.foldl (encStep label) (n, false, [])).2.2 = [] := by
  intro l
  induction l with
  | nil => intro n _; exact ⟨rfl, rfl⟩
  | cons h t ih =>
    intro n hall
    have hh : occursIn label h.createdBy.data = false := hall h (by simp)
    have ht : ∀ r ∈ t, occursIn label r.createdBy.data = false :=
      fun r hr => hall r (by simp [hr])
    have hstep : ∃ n2, encStep label (n, false, []) h = (n2, false, []) := by
      rcases hm : findMatch label h.createdBy.data with _ | ob
      · exact ⟨n + 1, by simp [encStep, hm]⟩
      · rcases ob with _ | b
        · by_cases hs : h.size = 0
          · exact ⟨n, by simp [encStep, hm, hs]⟩
          · exact ⟨n + 1, by simp [encStep, hm, hs]⟩
        · exact absurd (findMatch_occurs label h.createdBy.data b hm) (by simp [hh])
    obtain ⟨n2, hn2⟩ := hstep
    simpa [hn2] using ih n2 ht

/-- numLayers never finds the label if no record contains it. -/
theorem numLayersGo_no_label (label : List Char) :
    ∀ (l : List HistRecord) (n : Nat),
      (∀ r ∈ l, occursIn label r.createdBy.data = false) →
      numLayersGo label l n = .error (.newError missingLabelMsg) := by
  intro l
  induction l with
  | nil => intro n _; rfl
  | cons h t ih =>
    intro n hall
    have hh : occursIn label h.createdBy.data = false := hall h (by simp)
    have ht : ∀ r ∈ t, occursIn label r.createdBy.data = false :=
      fun r hr => hall r (by simp [hr])
    by_cases hc : h.size ≠ 0 ∨ occursIn nopChars h.createdBy.data = false
    · simp [numLayersGo, hc, ih (n + 1) ht]
    · simp [numLayersGo, hc, hh, ih n ht]

/-! ## Claim theorems for the layer selection engine -/

/-- C1 counterexample: on the worked-example history of the
specification, passed to encryptPositions newest first exactly as the
claim states, the function does not return the positions of A and B:
it returns the missing-label error (the loop visits the slice from its
end, so the true marker is seen only after every layer, and the marker
strings, lacking the #(nop) prefix, are not recognized at all). -/
theorem c1_spec_example_fails :
    encryptPositions labelX specHist = .error (.newError missingLabelMsg) := rfl

/-- C1 amended: with the marker records carrying their real docker
#(nop) created-by strings and the history ordered newest first with
layer C newest (so that the loop, which visits the slice from its end,
scans the true marker first), encryptPositions returns exactly the
positions 0 and 1 of the real layers A and B (counted from the oldest
real layer), and position 2 of layer C is not selected. -/
theorem c1_amended_selection :
    encryptPositions labelX amendedHist = .ok [0, 1] ∧ (2 : Nat) ∉ ([0, 1] : List Nat) :=
  ⟨rfl, by decide⟩

/-- C7: for every history none of whose records contains the label
string, layer selection fails with the missing-label error (message
"this image was not built with the correct LABEL") and records no
position; this holds both for encryptPositions and for the older
numLayers variant. -/
theorem no_label_means_error (label : List Char) (hist : List HistRecord)
    (h : ∀ r ∈ hist, occursIn label r.createdBy.data = false) :
    encryptPositions label hist = .error (.newError missingLabelMsg) ∧
      encPosList label hist = [] ∧
      numLayers label hist = .error (.newError missingLabelMsg) := by
  have hrev : ∀ r ∈ hist.reverse, occursIn label r.createdBy.data = false := by
    intro r hr
    exact h r (List.mem_reverse.mp hr)
  obtain ⟨hflag, hacc⟩ := encFold_inv label hist.reverse 0 hrev
  refine ⟨?_, hacc, numLayersGo_no_label label hist 0 h⟩
  simp only [encryptPositions]
  rw [if_pos hacc]

/-- C7 witness: the one-layer history with created-by "A" and no label
anywhere is rejected by both selection functions. -/
theorem no_label_means_error_witness :
    encryptPositions labelX [⟨100, "A"⟩] = .error (.newError missingLabelMsg) ∧
      encPosList labelX [⟨100, "A"⟩] = [] ∧
      numLayers labelX [⟨100, "A"⟩] = .error (.newError missingLabelMsg) :=
  no_label_means_error labelX [⟨100, "A"⟩] (by decide)

/-- C8 counterexample: the zero-size record "deadbeef" matches no
pattern of the regular expression, yet encryptPositions counts it as a
real layer and, the flag being armed, records its position: a history
with no real layer at all yields the selected position 0 instead of
treating the record as count-zero. -/
theorem c8_unmatched_counted :
    encryptPositions labelX [⟨0, "deadbeef"⟩, ⟨0, trueMarkerCmd⟩] = .ok [0] := rfl

/-- C8 amended: a zero-size history record whose created-by matches
the generic #(nop) alternative but not the label alternative is
count-zero (neither the counter nor the flag nor the recorded
positions change, whatever the current state); a zero-size record that
matches no alternative at all is instead treated as a real layer: the
counter is incremented and the position is recorded if the flag is
armed. -/
theorem encStep_zero_size (label : List Char) (st : Nat × Bool × List Nat)
    (h : HistRecord) (hsz : h.size = 0) :
    (findMatch label h.createdBy.data = some none → encStep label st h = st) ∧
      (findMatch label h.createdBy.data = none →
        encStep label st h =
          (st.1 + 1, st.2.1, if st.2.1 then st.2.2 ++ [st.1] else st.2.2)) := by
  constructor
  · intro hm
    simp [encStep, hm, hsz]
  · intro hm
    simp [encStep, hm, hsz]

/-- C8 amended witness: from the state (5, armed, [1]), a zero-size
ENV #(nop) record changes nothing, while the unmatched zero-size
record "xyz" advances the counter and records position 5. -/
theorem encStep_zero_size_witness :
    encStep labelX (5, true, [1]) ⟨0, "/bin/sh -c #(nop)  ENV A=B"⟩ = (5, true, [1]) ∧
      encStep labelX (5, true, [1]) ⟨0, "xyz"⟩ = (6, true, [1, 5]) := by
  constructor
  · exact (encStep_zero_size labelX (5, true, [1]) ⟨0, "/bin/sh -c #(nop)  ENV A=B"⟩ rfl).1 rfl
  · have := (encStep_zero_size labelX (5, true, [1]) ⟨0, "xyz"⟩ rfl).2 rfl
    simpa using this

/-- C10: encryptPositions returns the missing-label error exactly when
the list of recorded positions is empty; in particular it fails on the
history whose only (well-formed, recognized) true marker sits at slice
index 0 and is therefore scanned last, after every real layer. -/
theorem encryptPositions_error_iff_empty :
    (∀ (label : List Char) (hist : List HistRecord),
        encryptPositions label hist = .error (.newError missingLabelMsg) ↔
          encPosList label hist = []) ∧
      encryptPositions labelX loneMarkerHist = .error (.newError missingLabelMsg) ∧
        findMatch labelX trueMarkerCmd.data = some (some true) := by
  refine ⟨fun label hist => ?_, rfl, rfl⟩
  unfold encryptPositions encPosList
  by_cases hh : (hist.reverse.foldl (encStep label) (0, false, [])).2.2 = []
  · simp [hh]
  · simp [hh]

/-! ## Lemmas about the layer loop of Encrypt -/

theorem encLayersGo_length (ref : Ref) (opts : Opts) :
    ∀ (ls : List Blob) (k : Nat), (encLayersGo ref opts k ls).length = ls.length := by
  intro ls
  induction ls with
  | nil => intro k; rfl
  | cons b rest ih => intro k; simp [encLayersGo, ih]

theorem encLayersGo_get (ref : Ref) (opts : Opts) :
    ∀ (ls : List Blob) (k i : Nat) (h : i < ls.length)
      (h2 : i < (encLayersGo ref opts k ls).length),
      (encLayersGo ref opts k ls).get ⟨i, h2⟩ =
        encLayerStep ref opts (k + i) (ls.get ⟨i, h⟩) := by
  intro ls
  induction ls with
  | nil => intro k i h h2; exact absurd h (by simp)
  | cons b rest ih =>
    intro k i h h2
    cases i with
    | zero => simp [encLayersGo]
    | succ j =>
      have hj : j < rest.length := by simpa using h
      have hj2 : j < (encLayersGo ref opts (k + 1) rest).length := by
        rw [encLayersGo_length]
        exact hj
      calc (encLayersGo ref opts k (b :: rest)).get ⟨j + 1, h2⟩
          = (encLayersGo ref opts (k + 1) rest).get ⟨j, hj2⟩ := rfl
        _ = encLayerStep ref opts ((k + 1) + j) (rest.get ⟨j, hj⟩) := ih (k + 1) j hj hj2
        _ = encLayerStep ref opts (k + (j + 1)) (rest.get ⟨j, hj⟩) := by
            congr 1
            omega

/-! ## Claim theorems for the manifest orchestrator (push side) -/

/-- C5: Encrypt returns a new manifest with the same schema version,
media type and directory name, with as many layers as the input, and
the blob at every output index i is a function of the input blob at
the same index i (and of i alone), so the relative order of layers is
never changed; the embedding is pure, so the input manifest itself is
untouched. -/
theorem encrypt_preserves_structure (m : ImageManifest) (ref : Ref) (opts : Opts) :
    (m.encrypt ref opts).schemaVersion = m.schemaVersion ∧
      (m.encrypt ref opts).mediaType = m.mediaType ∧
      (m.encrypt ref opts).dirName = m.dirName ∧
      (m.encrypt ref opts).layers.length = m.layers.length ∧
      ∀ (i : Nat) (h : i < m.layers.length) (h2 : i < (m.encrypt ref opts).layers.length),
        (m.encrypt ref opts).layers.get ⟨i, h2⟩ =
          encLayerStep ref opts i (m.layers.get ⟨i, h⟩) := by
  refine ⟨rfl, rfl, rfl, encLayersGo_length ref opts m.layers 0, ?_⟩
  intro i h h2
  have := encLayersGo_get ref opts m.layers 0 i h h2
  simpa using this

/-- C5 witness: on the concrete two-layer manifest m0, the encrypted
manifest keeps the layer count and the blob at index 0 is the
transition of the input blob at index 0. -/
theorem encrypt_preserves_structure_witness :
    (m0.encrypt ref0 opts0).layers.length = m0.layers.length ∧
      (m0.encrypt ref0 opts0).layers.get ⟨0, by decide⟩ =
        encLayerStep ref0 opts0 0 (m0.layers.get ⟨0, by decide⟩) :=
  ⟨(encrypt_preserves_structure m0 ref0 opts0).2.2.2.1,
   (encrypt_preserves_structure m0 ref0 opts0).2.2.2.2 0 (by decide) (by decide)⟩

/-- C4 counterexample: with a plain (noncrypted) config, Encrypt
passes the config through uncompressed: the output config is again a
plain blob carrying the original content, with digest and size
recomputed from the plain bytes, not a Compressed blob (the
compression call for the config is commented out in the source). -/
theorem c4_config_not_compressed :
    (mC4.encrypt ref0 opts0).config =
      .noncrypted "cfg" (some (.raw [7, 7])) 2 (.raw [7, 7]) := rfl

/-- C4 amended: every non-selected plain layer blob is gzip-compressed
into a Compressed blob whose digest and size are those of the
compressed bytes; the plain config however is passed through
uncompressed, with digest and size recomputed from the plain
content. -/
theorem c4_amended (m : ImageManifest) (ref : Ref) (opts : Opts) (fn : String)
    (d : Option FileContent) (s : Nat) (c : FileContent) :
    (∀ (i : Nat) (h : i < m.layers.length) (h2 : i < (m.encrypt ref opts).layers.length),
        m.layers.get ⟨i, h⟩ = .noncrypted fn d s c →
          (m.encrypt ref opts).layers.get ⟨i, h2⟩ =
            .compressed (fn ++ ".gz") (.gz c) (fcSize (.gz c)) (.gz c)) ∧
      (m.config = .noncrypted fn d s c →
        (m.encrypt ref opts).config = .noncrypted fn (some c) (fcSize c) c) := by
  constructor
  · intro i h h2 hb
    have hg := encLayersGo_get ref opts m.layers 0 i h h2
    rw [hb] at hg
    simpa [encLayerStep, compressBlob] using hg
  · intro hc
    show encConfigStep ref opts m.config = _
    rw [hc]
    rfl

/-- C4 amended witness: on the concrete manifest mC4, the plain layer
at index 0 comes out compressed and the plain config comes out plain
and uncompressed. -/
theorem c4_amended_witness :
    (mC4.encrypt ref0 opts0).layers.get ⟨0, by decide⟩ =
        .compressed ("l1" ++ ".gz") (.gz (.raw [4, 5])) (fcSize (.gz (.raw [4, 5])))
          (.gz (.raw [4, 5])) ∧
      (mC4.encrypt ref0 opts0).config =
        .noncrypted "cfg" (some (.raw [7, 7])) (fcSize (.raw [7, 7])) (.raw [7, 7]) :=
  ⟨(c4_amended mC4 ref0 opts0 "l1" none 0 (.raw [4, 5])).1 0 (by decide) (by decide)
      (by decide),
   (c4_amended mC4 ref0 opts0 "cfg" none 0 (.raw [7, 7])).2 (by decide)⟩

/-! ## Claim theorems for the manifest orchestrator (pull side) -/

/-- C6 counterexample: a manifest whose single layer is still
key-wrapped, a state the claim calls a contract violation, is not
rejected: DecryptManifest succeeds and silently maps the layer to the
nil blob, so the call neither fails nor returns a manifest whose every
blob is Plain. -/
theorem c6_other_layer_not_error :
    (DecryptManifest mC6).map (fun m => m.layers) = .ok [Blob.nilBlob] := rfl

/-- C6 amended: DecryptManifest maps a key-unwrapped blob whose data
key verifies to a Plain blob by file decryption, and a Compressed gzip
blob to a Plain blob by decompression; a config in any other variant
makes the whole call fail with the not-decryptable error; but a layer
in any other variant is silently mapped to the nil Go interface value
with no error, so the call can succeed without every returned blob
being Plain. -/
theorem c6_amended (m : ImageManifest) (fn fn2 : String) (dg dg2 : FileContent)
    (sz sz2 : Nat) (p : FileContent) (dk : Nat) (b : Blob) :
    (configBadB m.config = true →
        DecryptManifest m = .error (.goError notDecryptableMsg)) ∧
      decLayerStep (.keyDecrypted fn dg sz (.aes dk p) dk) =
        .ok (.noncrypted (fn ++ ".dec") (some p) (fcSize p) p) ∧
      decLayerStep (.compressed fn2 dg2 sz2 (.gz p)) =
        .ok (.noncrypted (fn2 ++ ".dec") (some p) (fcSize p) p) ∧
      (layerOtherB b = true → decLayerStep b = .ok .nilBlob) := by
  refine ⟨?_, by simp [decLayerStep, decFileBlob], rfl, ?_⟩
  · intro hb
    cases hcfg : m.config with
    | noncrypted fn3 d3 s3 c3 => rw [hcfg] at hb; simp [configBadB] at hb
    | keyDecrypted fn3 d3 s3 c3 k3 => rw [hcfg] at hb; simp [configBadB] at hb
    | decrypted fn3 c3 => simp [DecryptManifest, hcfg]
    | encrypted fn3 d3 s3 c3 w3 => simp [DecryptManifest, hcfg]
    | compressed fn3 d3 s3 c3 => simp [DecryptManifest, hcfg]
    | nilBlob => simp [DecryptManifest, hcfg]
  · intro hb
    cases b <;> simp_all [layerOtherB, decLayerStep]

/-- C6 amended witness: the nil-config manifest is rejected, a
verifying key-unwrapped layer decrypts to a Plain blob, and a nil
layer is passed to nil without error. -/
theorem c6_amended_witness :
    DecryptManifest mBadCfg = .error (.goError notDecryptableMsg) ∧
      decLayerStep (.keyDecrypted "k" (.raw []) 0 (.aes 3 (.raw [9])) 3) =
        .ok (.noncrypted ("k" ++ ".dec") (some (.raw [9])) 1 (.raw [9])) ∧
      decLayerStep .nilBlob = .ok .nilBlob :=
  ⟨(c6_amended mBadCfg "k" "x" (.raw []) (.raw []) 0 0 (.raw [9]) 3 .nilBlob).1 rfl,
   (c6_amended mBadCfg "k" "x" (.raw []) (.raw []) 0 0 (.raw [9]) 3 .nilBlob).2.1,
   (c6_amended mBadCfg "k" "x" (.raw []) (.raw []) 0 0 (.raw [9]) 3 .nilBlob).2.2.2 rfl⟩

/-! ## The round trip -/

/-- Push-ready layers survive the whole pipeline: encrypting the layer
list from index k, then unwrapping the keys from index k, then
decrypting, succeeds and recovers every content byte for byte. -/
theorem layers_roundtrip (ref : Ref) (opts : Opts) :
    ∀ (ls : List Blob) (k : Nat), (∀ b ∈ ls, pushReadyB b = true) →
      ∃ ls2 ls3,
        dkLayersGo opts.passphrase ref k (encLayersGo ref opts k ls) = (ls2, none) ∧
          decLayersGo ls2 = .ok ls3 ∧ ls3.map contentOf = ls.map contentOf := by
  intro ls
  induction ls with
  | nil => intro k _; exact ⟨[], [], rfl, rfl, rfl⟩
  | cons b rest ih =>
    intro k hall
    have hb : pushReadyB b = true := hall b (by simp)
    have hrest : ∀ x ∈ rest, pushReadyB x = true := fun x hx => hall x (by simp [hx])
    obtain ⟨ls2, ls3, h1, h2, h3⟩ := ih (k + 1) hrest
    cases b with
    | decrypted fn c =>
      refine ⟨.keyDecrypted (fn ++ ".aes")
            (.aes (genDataKey { opts with salt := layerSaltStr ref.path ref.tag k }) c)
            (fcSize (.aes (genDataKey { opts with salt := layerSaltStr ref.path ref.tag k }) c))
            (.aes (genDataKey { opts with salt := layerSaltStr ref.path ref.tag k }) c)
            (genDataKey { opts with salt := layerSaltStr ref.path ref.tag k }) :: ls2,
          .noncrypted ((fn ++ ".aes") ++ ".dec") (some c) (fcSize c) c :: ls3, ?_, ?_, ?_⟩
      · simp [encLayersGo, encLayerStep, encryptBlobC, dkLayersGo, h1]
      · simp [decLayersGo, decLayerStep, decFileBlob, h2]
      · simp [contentOf, h3]
    | noncrypted fn d s c =>
      refine ⟨.compressed (fn ++ ".gz") (.gz c) (fcSize (.gz c)) (.gz c) :: ls2,
          .noncrypted ((fn ++ ".gz") ++ ".dec") (some c) (fcSize c) c :: ls3, ?_, ?_, ?_⟩
      · simp [encLayersGo, encLayerStep, compressBlob, dkLayersGo, h1]
      · simp [decLayersGo, decLayerStep, decompressBlob, h2]
      · simp [contentOf, h3]
    | compressed fn dg sz c => simp [pushReadyB] at hb
    | encrypted fn dg sz c w => simp [pushReadyB] at hb
    | keyDecrypted fn dg sz c dk => simp [pushReadyB] at hb
    | nilBlob => simp [pushReadyB] at hb

/-- C2: for every manifest whose config and layers are in push-ready
plain form (staged for encryption or plain), running Encrypt and then,
under the same passphrase and the same repository and tag reference,
DecryptKeys followed by DecryptManifest succeeds with no error, and
every blob content of the recovered manifest equals the original
content byte for byte. -/
theorem roundtrip (m : ImageManifest) (ref : Ref) (opts : Opts)
    (hc : pushReadyB m.config = true) (hl : ∀ b ∈ m.layers, pushReadyB b = true) :
    ∃ m2 m3,
      (m.encrypt ref opts).decryptKeys opts ref = (m2, none) ∧
        DecryptManifest m2 = .ok m3 ∧
        contentOf m3.config = contentOf m.config ∧
        m3.layers.map contentOf = m.layers.map contentOf := by
  obtain ⟨ls2, ls3, h1, h2, h3⟩ := layers_roundtrip ref opts m.layers 0 hl
  cases hcfg : m.config with
  | decrypted fn c =>
    refine ⟨⟨m.schemaVersion, m.mediaType,
        .keyDecrypted (fn ++ ".aes")
          (.aes (genDataKey { opts with salt := configSaltStr ref.path ref.tag }) c)
          (fcSize (.aes (genDataKey { opts with salt := configSaltStr ref.path ref.tag }) c))
          (.aes (genDataKey { opts with salt := configSaltStr ref.path ref.tag }) c)
          (genDataKey { opts with salt := configSaltStr ref.path ref.tag }),
        ls2, m.dirName⟩,
      ⟨m.schemaVersion, m.mediaType,
        .noncrypted ((fn ++ ".aes") ++ ".dec") (some c) (fcSize c) c,
        ls3, m.dirName⟩, ?_, ?_, ?_, ?_⟩
    · simp [ImageManifest.encrypt, encConfigStep, encryptBlobC,
        ImageManifest.decryptKeys, hcfg, h1]
    · simp [DecryptManifest, decFileBlob, h2]
    · simp [contentOf, hcfg]
    · exact h3
  | noncrypted fn d s c =>
    refine ⟨⟨m.schemaVersion, m.mediaType,
        .noncrypted fn (some c) (fcSize c) c, ls2, m.dirName⟩,
      ⟨m.schemaVersion, m.mediaType,
        .noncrypted fn (some c) (fcSize c) c, ls3, m.dirName⟩, ?_, ?_, ?_, ?_⟩
    · simp [ImageManifest.encrypt, encConfigStep, ImageManifest.decryptKeys, hcfg, h1]
    · simp [DecryptManifest, h2]
    · simp [contentOf, hcfg]
    · exact h3
  | compressed fn dg sz c => rw [hcfg] at hc; simp [pushReadyB] at hc
  | encrypted fn dg sz c w => rw [hcfg] at hc; simp [pushReadyB] at hc
  | keyDecrypted fn dg sz c dk => rw [hcfg] at hc; simp [pushReadyB] at hc
  | nilBlob => rw [hcfg] at hc; simp [pushReadyB] at hc

/-- C2 witness: the round trip on the concrete manifest m0 (one
staged layer, one plain layer, a staged config) under the reference
ref0 and passphrase of opts0. -/
theorem roundtrip_witness :
    ∃ m2 m3,
      (m0.encrypt ref0 opts0).decryptKeys opts0 ref0 = (m2, none) ∧
        DecryptManifest m2 = .ok m3 ∧
        contentOf m3.config = contentOf m0.config ∧
        m3.layers.map contentOf = m0.layers.map contentOf :=
  roundtrip m0 ref0 opts0 (by decide) (by decide)

/-! ## DecryptKeys first-error semantics -/

theorem dkLayersGo_first_error (pass : String) (ref : Ref) :
    ∀ (pre : List Blob) (k : Nat) (post : List Blob) (fnb : String) (dgb : FileContent)
      (szb : Nat) (cb : FileContent) (kek : String × String) (dkb : Nat),
      (∀ (j : Nat) (h : j < pre.length),
        isEncAt pass ref.path ref.tag (k + j) (pre.get ⟨j, h⟩)) →
      kek ≠ (pass, layerSaltStr ref.path ref.tag (k + pre.length)) →
      dkLayersGo pass ref k (pre ++ .encrypted fnb dgb szb cb (kek, dkb) :: post) =
        (pre.map unwrapEnc ++ .encrypted fnb dgb szb cb (kek, dkb) :: post,
          some .authFailed) := by
  intro pre
  induction pre with
  | nil =>
    intro k post fnb dgb szb cb kek dkb hpre hbad
    have hbad0 : ¬ kek = (pass, layerSaltStr ref.path ref.tag k) := by simpa using hbad
    simp [dkLayersGo, hbad0]
  | cons p pre' ih =>
    intro k post fnb dgb szb cb kek dkb hpre hbad
    obtain ⟨fn, dg, sz, c, dk, hp⟩ := hpre 0 (by simp)
    have hpre' : ∀ (j : Nat) (h : j < pre'.length),
        isEncAt pass ref.path ref.tag ((k + 1) + j) (pre'.get ⟨j, h⟩) := by
      intro j hj
      have h2 := hpre (j + 1) (by simpa using hj)
      rw [show k + (j + 1) = (k + 1) + j by omega] at h2
      simpa using h2
    have hbad' : kek ≠ (pass, layerSaltStr ref.path ref.tag ((k + 1) + pre'.length)) := by
      rw [show (k + 1) + pre'.length = k + (p :: pre').length by simp; omega]
      exact hbad
    have hgo := ih (k + 1) post fnb dgb szb cb kek dkb hpre' hbad'
    simp at hp
    subst hp
    simp [dkLayersGo, hgo, unwrapEnc]

/-- C9: DecryptKeys works in place, config first and then layers in
index order, and returns the first unwrap failure immediately: if the
config and the layers before position i unwrap fine and the kek of the
layer at position i does not match, the returned manifest has the
config and every layer before i replaced by its key-unwrapped form (no
rollback), while the layer at i and every later layer are unchanged,
and the returned error is the authentication failure of layer i. -/
theorem decryptKeys_first_error (sv : Nat) (mt dn fnc : String) (dgc : FileContent)
    (szc : Nat) (cc : FileContent) (dkc : Nat) (pass salt0 : String) (ref : Ref)
    (pre post : List Blob) (fnb : String) (dgb : FileContent) (szb : Nat)
    (cb : FileContent) (kek : String × String) (dkb : Nat)
    (hpre : ∀ (j : Nat) (h : j < pre.length),
      isEncAt pass ref.path ref.tag j (pre.get ⟨j, h⟩))
    (hbad : kek ≠ (pass, layerSaltStr ref.path ref.tag pre.length)) :
    ImageManifest.decryptKeys
        { schemaVersion := sv, mediaType := mt, dirName := dn,
          config := .encrypted fnc dgc szc cc ((pass, configSaltStr ref.path ref.tag), dkc),
          layers := pre ++ .encrypted fnb dgb szb cb (kek, dkb) :: post }
        ⟨pass, salt0⟩ ref =
      ({ schemaVersion := sv, mediaType := mt, dirName := dn,
         config := .keyDecrypted fnc dgc szc cc dkc,
         layers := pre.map unwrapEnc ++ .encrypted fnb dgb szb cb (kek, dkb) :: post },
        some .authFailed) := by
  have hpre0 : ∀ (j : Nat) (h : j < pre.length),
      isEncAt pass ref.path ref.tag (0 + j) (pre.get ⟨j, h⟩) := by
    intro j h
    simpa using hpre j h
  have hbad0 : kek ≠ (pass, layerSaltStr ref.path ref.tag (0 + pre.length)) := by
    simpa using hbad
  have hgo := dkLayersGo_first_error pass ref pre 0 post fnb dgb szb cb kek dkb hpre0 hbad0
  simp [ImageManifest.decryptKeys, hgo]

/-- C9 witness: a three-layer manifest whose first layer is wrapped
under the right kek, whose second layer is wrapped under a wrong kek
and whose third slot is nil: the config and layer 0 come out
unwrapped, layers 1 and 2 are untouched, and the error is the
authentication failure. -/
theorem decryptKeys_first_error_witness :
    ImageManifest.decryptKeys
        { schemaVersion := 2, mediaType := "mt", dirName := "d",
          config := .encrypted "c" (.raw []) 0 (.raw []) (("p", configSaltStr "r" "t"), 5),
          layers := [.encrypted "a" (.raw []) 0 (.raw []) (("p", layerSaltStr "r" "t" 0), 7),
            .encrypted "b" (.raw []) 0 (.raw []) (("x", "y"), 9), .nilBlob] }
        ⟨"p", ""⟩ ⟨"r", "t"⟩ =
      ({ schemaVersion := 2, mediaType := "mt", dirName := "d",
         config := .keyDecrypted "c" (.raw []) 0 (.raw []) 5,
         layers := [.keyDecrypted "a" (.raw []) 0 (.raw []) 7,
           .encrypted "b" (.raw []) 0 (.raw []) (("x", "y"), 9), .nilBlob] },
        some .authFailed) := by
  have h := decryptKeys_first_error 2 "mt" "d" "c" (.raw []) 0 (.raw []) 5 "p" "" ⟨"r", "t"⟩
      [.encrypted "a" (.raw []) 0 (.raw []) (("p", layerSaltStr "r" "t" 0), 7)]
      [.nilBlob] "b" (.raw []) 0 (.raw []) ("x", "y") 9
      (by
        intro j hj
        have hj0 : j = 0 := by simpa using Nat.lt_one_iff.mp (by simpa using hj)
        subst hj0
        exact ⟨"a", .raw [], 0, .raw [], 7, rfl⟩)
      (by decide)
  simpa [unwrapEnc] using h

/-! ## The salt derivation contract -/

theorem strData (a b : String) : (a ++ b).data = a.data ++ b.data := rfl

theorem strExt (a b : String) (h : a.data = b.data) : a = b := by
  cases a
  cases b
  exact congrArg String.mk (by simpa using h)

theorem digitChar_ne_slash (d : Nat) : digitChar d ≠ '/' := by
  unfold digitChar
  split <;> decide

theorem digitChar_inj (a b : Nat) (ha : a < 10) (hb : b < 10)
    (h : digitChar a = digitChar b) : a = b := by
  interval_cases a <;> interval_cases b <;> revert h <;> decide

theorem natDecGo_app : ∀ (n fuel : Nat) (acc : List Char), n < fuel →
    natDecGo fuel n acc = natDec n ++ acc := by
  intro n
  induction n using Nat.strong_induction_on with
  | _ n ih =>
    intro fuel acc hlt
    match fuel with
    | 0 => omega
    | f + 1 =>
      by_cases h10 : n < 10
      · simp [natDecGo, natDec, h10]
      · have hdiv : n / 10 < n := Nat.div_lt_self (by omega) (by omega)
        have e1 : natDecGo (f + 1) n acc = natDecGo f (n / 10) (digitChar (n % 10) :: acc) := by
          simp only [natDecGo]
          rw [if_neg h10]
        have e2 : natDecGo f (n / 10) (digitChar (n % 10) :: acc) =
            natDec (n / 10) ++ digitChar (n % 10) :: acc :=
          ih (n / 10) hdiv f _ (by omega)
        have e4 : natDecGo (n + 1) n [] = natDecGo n (n / 10) [digitChar (n % 10)] := by
          simp only [natDecGo]
          rw [if_neg h10]
        have e3 : natDec n = natDec (n / 10) ++ [digitChar (n % 10)] := by
          show natDecGo (n + 1) n [] = _
          rw [e4, ih (n / 10) hdiv n _ (by omega)]
        rw [e1, e2, e3]
        simp

theorem natDec_small (n : Nat) (h : n < 10) : natDec n = [digitChar n] := by
  simp [natDec, natDecGo, h]

theorem natDec_step (n : Nat) (h : 10 ≤ n) : natDec n = natDec (n / 10) ++ [digitChar (n % 10)] := by
  have hdiv : n / 10 < n := Nat.div_lt_self (by omega) (by omega)
  show natDecGo (n + 1) n [] = _
  simp only [natDecGo]
  rw [if_neg (by omega)]
  exact natDecGo_app (n / 10) n [digitChar (n % 10)] (by omega)

theorem natDec_nonempty (n : Nat) : natDec n ≠ [] := by
  by_cases h10 : n < 10
  · simp [natDec_small n h10]
  · simp [natDec_step n (by omega)]

theorem natDec_no_slash (n : Nat) : ∀ c ∈ natDec n, c ≠ '/' := by
  induction n using Nat.strong_induction_on with
  | _ n ih =>
    by_cases h10 : n < 10
    · rw [natDec_small n h10]
      intro c hc
      simp at hc
      subst hc
      exact digitChar_ne_slash n
    · rw [natDec_step n (by omega)]
      intro c hc
      rcases List.mem_append.mp hc with h | h
      · exact ih (n / 10) (Nat.div_lt_self (by omega) (by omega)) c h
      · simp at h
        subst h
        exact digitChar_ne_slash _

theorem natDec_inj : ∀ n m : Nat, natDec n = natDec m → n = m := by
  intro n
  induction n using Nat.strong_induction_on with
  | _ n ih =>
    intro m h
    by_cases hn : n < 10 <;> by_cases hm : m < 10
    · rw [natDec_small n hn, natDec_small m hm] at h
      simp at h
      exact digitChar_inj n m hn hm h
    · exfalso
      rw [natDec_small n hn, natDec_step m (by omega)] at h
      have hlen := congrArg List.length h
      rw [List.length_append] at hlen
      simp only [List.length_cons, List.length_nil] at hlen
      have hpos : 0 < (natDec (m / 10)).length :=
        List.length_pos.mpr (natDec_nonempty (m / 10))
      omega
    · exfalso
      rw [natDec_step n (by omega), natDec_small m hm] at h
      have hlen := congrArg List.length h
      rw [List.length_append] at hlen
      simp only [List.length_cons, List.length_nil] at hlen
      have hpos : 0 < (natDec (n / 10)).length :=
        List.length_pos.mpr (natDec_nonempty (n / 10))
      omega
    · rw [natDec_step n (by omega), natDec_step m (by omega)] at h
      obtain ⟨h1, h2⟩ := List.append_inj' h (by simp)
      simp at h2
      have hdiv : n / 10 = m / 10 :=
        ih (n / 10) (Nat.div_lt_self (by omega) (by omega)) (m / 10) h1
      have hmod : n % 10 = m % 10 :=
        digitChar_inj _ _ (Nat.mod_lt _ (by omega)) (Nat.mod_lt _ (by omega)) h2
      omega

/-- The last slash splits a character list uniquely when what follows
it is slash-free. -/
theorem revSplit : ∀ (u v u2 v2 : List Char), (∀ c ∈ u, c ≠ '/') → (∀ c ∈ u2, c ≠ '/') →
    u ++ '/' :: v = u2 ++ '/' :: v2 → u = u2 ∧ v = v2 := by
  intro u
  induction u with
  | nil =>
    intro v u2 v2 _ hu2 h
    cases u2 with
    | nil => simpa using h
    | cons a t =>
      simp at h
      exact absurd h.1.symm (hu2 a (by simp))
  | cons a t ih =>
    intro v u2 v2 hu hu2 h
    cases u2 with
    | nil =>
      simp at h
      exact absurd h.1 (hu a (by simp))
    | cons a2 t2 =>
      simp at h
      have := ih v t2 v2 (fun c hc => hu c (by simp [hc])) (fun c hc => hu2 c (by simp [hc])) h.2
      exact ⟨by simp [h.1, this.1], this.2⟩

theorem rightPeel (v u v2 u2 : List Char) (hu : ∀ c ∈ u, c ≠ '/')
    (hu2 : ∀ c ∈ u2, c ≠ '/') (h : v ++ '/' :: u = v2 ++ '/' :: u2) : v = v2 ∧ u = u2 := by
  have hr := congrArg List.reverse h
  simp only [List.reverse_append, List.reverse_cons, List.append_assoc,
    List.singleton_append] at hr
  have := revSplit u.reverse v.reverse u2.reverse v2.reverse
    (fun c hc => hu c (List.mem_reverse.mp hc))
    (fun c hc => hu2 c (List.mem_reverse.mp hc)) hr
  exact ⟨List.reverse_injective this.2, List.reverse_injective this.1⟩

theorem saltFor_data (r t : String) (p : Option Nat) :
    (saltFor r t p).data =
      "com.senetas.crypto/".data ++ (r.data ++ '/' :: (t.data ++ '/' :: sfxOf p)) := by
  cases p with
  | none =>
    show ("com.senetas.crypto/" ++ r ++ "/" ++ t ++ "/config").data = _
    rw [strData, strData, strData, strData]
    rw [show ("/" : String).data = ['/'] from rfl,
      show ("/config" : String).data = '/' :: ("config" : String).data from rfl]
    simp [sfxOf, List.append_assoc]
  | some i =>
    show ("com.senetas.crypto/" ++ r ++ "/" ++ t ++ "/layer" ++ natDecStr i).data = _
    rw [strData, strData, strData, strData, strData]
    rw [show ("/" : String).data = ['/'] from rfl,
      show ("/layer" : String).data = '/' :: ("layer" : String).data from rfl,
      show (natDecStr i).data = natDec i from rfl]
    simp [sfxOf, List.append_assoc]

theorem sfxOf_no_slash (p : Option Nat) : ∀ c ∈ sfxOf p, c ≠ '/' := by
  cases p with
  | none =>
    intro c hc
    have hc2 : c ∈ ['c', 'o', 'n', 'f', 'i', 'g'] := hc
    fin_cases hc2 <;> decide
  | some i =>
    intro c hc
    rcases List.mem_append.mp hc with h | h
    · have hc2 : c ∈ ['l', 'a', 'y', 'e', 'r'] := h
      fin_cases hc2 <;> decide
    · exact natDec_no_slash i c h

theorem sfxOf_inj (p p2 : Option Nat) (h : sfxOf p = sfxOf p2) : p = p2 := by
  cases p with
  | none =>
    cases p2 with
    | none => rfl
    | some j =>
      exfalso
      rw [show sfxOf none = 'c' :: ("onfig" : String).data from rfl,
        show sfxOf (some j) = 'l' :: (("ayer" : String).data ++ natDec j) from rfl] at h
      simp at h
  | some i =>
    cases p2 with
    | none =>
      exfalso
      rw [show sfxOf none = 'c' :: ("onfig" : String).data from rfl,
        show sfxOf (some i) = 'l' :: (("ayer" : String).data ++ natDec i) from rfl] at h
      simp at h
    | some j =>
      have h2 : ("layer" : String).data ++ natDec i = ("layer" : String).data ++ natDec j := h
      have h3 := (List.append_inj h2 rfl).2
      rw [natDec_inj i j h3]

/-- C3: the salt passed to key derivation for the config blob of the
image at repository path r and tag t is the string
com.senetas.crypto/r/t/config and for its layer at position i the
string com.senetas.crypto/r/t/layer followed by the decimal of i; and
two distinct wrapping contexts (different repository path, different
tag, or different blob position) always produce distinct salt strings
(the tags, per docker tag syntax, contain no slash). -/
theorem salt_contract (r t r2 t2 : String) (p p2 : Option Nat)
    (ht : noSlashB t = true) (ht2 : noSlashB t2 = true) :
    saltFor r t none = "com.senetas.crypto/" ++ r ++ "/" ++ t ++ "/config" ∧
      (∀ i : Nat, saltFor r t (some i) =
        "com.senetas.crypto/" ++ r ++ "/" ++ t ++ "/layer" ++ natDecStr i) ∧
      (saltFor r t p = saltFor r2 t2 p2 → r = r2 ∧ t = t2 ∧ p = p2) := by
  refine ⟨rfl, fun i => rfl, ?_⟩
  intro h
  have hd := congrArg String.data h
  rw [saltFor_data, saltFor_data] at hd
  have hre : ∀ (rd td sd : List Char),
      ("com.senetas.crypto/" : String).data ++ (rd ++ '/' :: (td ++ '/' :: sd)) =
        ((("com.senetas.crypto/" : String).data ++ rd) ++ '/' :: td) ++ '/' :: sd := by
    intro rd td sd
    simp [List.append_assoc]
  rw [hre, hre] at hd
  have hns : ∀ c ∈ t.data, c ≠ '/' := by
    intro c hc
    have := (List.all_eq_true.mp ht) c hc
    simpa using this
  have hns2 : ∀ c ∈ t2.data, c ≠ '/' := by
    intro c hc
    have := (List.all_eq_true.mp ht2) c hc
    simpa using this
  obtain ⟨h1, hsfx⟩ := rightPeel _ _ _ _ (sfxOf_no_slash p) (sfxOf_no_slash p2) hd
  obtain ⟨h2, htd⟩ := rightPeel _ _ _ _ hns hns2 h1
  have hrd := (List.append_inj h2 rfl).2
  exact ⟨strExt r r2 hrd, strExt t t2 htd, sfxOf_inj p p2 hsfx⟩

/-- C3 witness: the formulas at the concrete reference user/app:v1,
and the distinctness of the config salt and the layer-0 salt there. -/
theorem salt_contract_witness :
    saltFor "user/app" "v1" none =
        "com.senetas.crypto/" ++ "user/app" ++ "/" ++ "v1" ++ "/config" ∧
      (saltFor "user/app" "v1" none = saltFor "user/app" "v1" (some 0) →
        "user/app" = "user/app" ∧ "v1" = "v1" ∧ (none : Option Nat) = some 0) := by
  have h := salt_contract "user/app" "v1" "user/app" "v1" none (some 0) (by decide) (by decide)
  exact ⟨h.1, h.2.2⟩

end CryptoCli
